import Mathlib

/-
Verification of the claude-context-extender core against its specification.

Shallow embedding of the relevant source modules:
  - FileProcessor.splitIntoChunks (segmenter)
  - IndexManager.createIndex, the retrieval strategies and the keyword fallback
  - ConversationManager.addExchange and exchange compaction
  - IterativeAnswerer.generateAnswer and its pacing computation

Conventions: JS numbers used as non-negative integers become Nat; positions
that may be negative (an inclusive end offset of an empty slice) become Int;
real-valued score arithmetic becomes Rat; fallible steps return Except; the
language-model transport and the filesystem are oracles passed as functions,
as the specification treats them as external collaborators.
-/

/-! Generic list helpers shared by several embedded components. -/

/-- First-occurrence deduplication, the behaviour of iterating a JS Set built
from a list: keep the first occurrence of each element, drop later ones. -/
def dedupFirst : List String → List String
  | [] => []
  | x :: xs => x :: dedupFirst (xs.filter (fun y => y ≠ x))
termination_by l => l.length
decreasing_by
  simp only [List.length_cons]
  exact Nat.lt_succ_of_le (List.length_filter_le _ _)

theorem dedupFirst_nodup : ∀ l : List String, (dedupFirst l).Nodup := by
  intro l
  induction l using dedupFirst.induct with
  | case1 => simp [dedupFirst]
  | case2 x xs ih =>
    rw [dedupFirst]
    refine List.nodup_cons.mpr ⟨?_, ih⟩
    intro hx
    have := List.of_mem_filter (dedupFirst_mem hx)
    simp at this
where
  /-- Membership in the deduplicated list implies membership in the source. -/
  dedupFirst_mem : ∀ {l : List String} {a : String}, a ∈ dedupFirst l → a ∈ l := by
    intro l
    induction l using dedupFirst.induct with
    | case1 => simp [dedupFirst]
    | case2 x xs ih =>
      intro a ha
      rw [dedupFirst] at ha
      rcases List.mem_cons.mp ha with h | h
      · simp [h]
      · exact List.mem_cons_of_mem _ (List.mem_of_mem_filter (ih h))

/-! Segmenter: embedding of FileProcessor.splitIntoChunks.  Text is a list of
characters; a JS string slice substring(a, b) is drop a then take (b - a). -/

/-- Chunk record as produced by the segmenter (models/Chunk.js fields used by
the splitting code).  The end offset is inclusive, so it is length - 1 for a
chunk starting at 0, which can be -1 for empty content; hence Int. -/
structure SegChunk where
  id : String
  content : List Char
  filePath : String
  startPosition : Int
  endPosition : Int
deriving Repr, DecidableEq

/-- Last path component, the behaviour of path.basename on the inputs the
segmenter uses for chunk identifiers. -/
def baseName (p : String) : String :=
  String.mk (p.data.foldl (fun acc c => if c = '/' then [] else acc ++ [c]) [])

/-- JS content.substring(a, b) for 0 ≤ a ≤ b as used by the splitting loop. -/
def listSlice (l : List Char) (a b : Nat) : List Char := (l.drop a).take (b - a)

/-- The while loop of splitIntoChunks: emit one padded chunk per stride of
maxChunkSize until the unpadded start position passes the end of the text.
The loop advances by the unpadded maxChunkSize, so it terminates exactly when
maxChunkSize is positive, which the hypothesis records. -/
def splitLoop (maxChunkSize : Nat) (hm : 0 < maxChunkSize) (padding : Nat)
    (content : List Char) (filePath : String) (pos idx : Nat) : List SegChunk :=
  if h : pos < content.length then
    { id := baseName filePath ++ "_chunk_" ++ toString idx
      content := listSlice content (pos - padding)
        (min (min (pos + maxChunkSize) content.length + padding) content.length)
      filePath := filePath
      startPosition := ((pos - padding : Nat) : Int)
      endPosition :=
        ((min (min (pos + maxChunkSize) content.length + padding) content.length : Nat) : Int) - 1 }
      :: splitLoop maxChunkSize hm padding content filePath (pos + maxChunkSize) (idx + 1)
  else []
termination_by content.length - pos
decreasing_by omega

/-- FileProcessor.splitIntoChunks: one whole-text chunk when the text fits in
maxChunkSize, otherwise the padded striding loop.  chunkPadding is
floor(maxChunkSize * overlapPercentage / 200). -/
def splitIntoChunks (maxChunkSize : Nat) (hm : 0 < maxChunkSize)
    (overlapPercentage : Nat) (content : List Char) (filePath : String) : List SegChunk :=
  if content.length ≤ maxChunkSize then
    [{ id := baseName filePath ++ "_chunk_1"
       content := content
       filePath := filePath
       startPosition := 0
       endPosition := (content.length : Int) - 1 }]
  else
    splitLoop maxChunkSize hm (maxChunkSize * overlapPercentage / 200) content filePath 0 1

/-- Offset and size bounds for every chunk the loop emits: start ≤ end as
offsets, and the slice is never longer than maxChunkSize plus both pads. -/
theorem splitLoop_bounds (m : Nat) (hm : 0 < m) (pad : Nat) (content : List Char)
    (fp : String) :
    ∀ N pos idx, content.length - pos ≤ N →
      ∀ ch ∈ splitLoop m hm pad content fp pos idx,
        ch.startPosition ≤ ch.endPosition ∧ ch.content.length ≤ m + 2 * pad := by
  intro N
  induction N with
  | zero =>
    intro pos idx hN ch hch
    rw [splitLoop, dif_neg (by omega)] at hch
    simp at hch
  | succ N ih =>
    intro pos idx hN ch hch
    rw [splitLoop] at hch
    by_cases h : pos < content.length
    · rw [dif_pos h] at hch
      rcases List.mem_cons.mp hch with hhd | htl
      · subst hhd
        constructor
        · simp only
          omega
        · simp only [listSlice, List.length_take, List.length_drop]
          omega
      · exact ih (pos + m) (idx + 1) (by omega) ch htl
    · rw [dif_neg h] at hch
      simp at hch

/-- Coverage of the loop: every position from pos to the end of the text lies
inside the inclusive offset range of some emitted chunk. -/
theorem splitLoop_cover (m : Nat) (hm : 0 < m) (pad : Nat) (content : List Char)
    (fp : String) :
    ∀ N pos idx, content.length - pos ≤ N →
      ∀ p : Nat, pos ≤ p → p < content.length →
        ∃ ch ∈ splitLoop m hm pad content fp pos idx,
          ch.startPosition ≤ (p : Int) ∧ (p : Int) ≤ ch.endPosition := by
  intro N
  induction N with
  | zero =>
    intro pos idx hN p hp hplen
    omega
  | succ N ih =>
    intro pos idx hN p hp hplen
    rw [splitLoop, dif_pos (by omega)]
    by_cases hcur : p < min (pos + m) content.length
    · refine ⟨_, List.mem_cons_self _ _, ?_, ?_⟩ <;> simp only <;> omega
    · obtain ⟨ch, hch, h1, h2⟩ :=
        ih (pos + m) (idx + 1) (by omega) p (by omega) hplen
      exact ⟨ch, List.mem_cons_of_mem _ hch, h1, h2⟩

/-- C4 (amended): for nonempty text every emitted segment satisfies
endPosition ≥ startPosition; empty text yields a single empty segment whose
inclusive offsets are startPosition = 0 and endPosition = -1 (start - 1). -/
theorem segment_offsets_invariant (m ov : Nat) (hm : 0 < m) (content : List Char)
    (fp : String) :
    (content ≠ [] → ∀ ch ∈ splitIntoChunks m hm ov content fp,
        ch.startPosition ≤ ch.endPosition)
    ∧ splitIntoChunks m hm ov [] fp =
        [{ id := baseName fp ++ "_chunk_1"
           content := []
           filePath := fp
           startPosition := 0
           endPosition := -1 }] := by
  constructor
  · intro hne ch hch
    rw [splitIntoChunks] at hch
    by_cases h : content.length ≤ m
    · rw [if_pos h] at hch
      simp only [List.mem_singleton] at hch
      subst hch
      have : 0 < content.length := List.length_pos.mpr hne
      simp only
      omega
    · rw [if_neg h] at hch
      exact (splitLoop_bounds m hm _ content fp content.length 0 1 (by omega) ch hch).1
  · rw [splitIntoChunks, if_pos (by simp)]
    simp

/-- C4 counterexample: the claim as stated fails on empty text, where the
single emitted segment has endPosition = -1 < 0 = startPosition. -/
theorem segment_offsets_claim_cex :
    splitIntoChunks 8 (by decide) 10 [] ("doc") =
      [{ id := "doc_chunk_1"
         content := []
         filePath := "doc"
         startPosition := 0
         endPosition := -1 }]
    ∧ ¬ ((0 : Int) ≤ -1) := by
  constructor
  · rw [splitIntoChunks, if_pos (by simp)]
    decide
  · decide

/-- C4 witness: the amended statement instantiated at a two-character text. -/
theorem segment_offsets_invariant_witness :
    (0 : Nat) < 3 ∧
    ((("ab".data : List Char) ≠ [] → ∀ ch ∈ splitIntoChunks 3 (by decide) 10 ("ab".data) ("doc"),
        ch.startPosition ≤ ch.endPosition)
     ∧ splitIntoChunks 3 (by decide) 10 [] ("doc") =
        [{ id := baseName ("doc") ++ "_chunk_1"
           content := []
           filePath := "doc"
           startPosition := 0
           endPosition := -1 }]) :=
  ⟨by decide, segment_offsets_invariant 3 10 (by decide) ("ab".data) ("doc")⟩

/-- C5: a text no longer than maxChunkSize is returned as exactly one segment
whose content is the whole text, with no trailing empty segment at the exact
boundary. -/
theorem single_segment_when_fits (m ov : Nat) (hm : 0 < m) (content : List Char)
    (fp : String) (h : content.length ≤ m) :
    splitIntoChunks m hm ov content fp =
      [{ id := baseName fp ++ "_chunk_1"
         content := content
         filePath := fp
         startPosition := 0
         endPosition := (content.length : Int) - 1 }] := by
  rw [splitIntoChunks, if_pos h]

/-- C5 witness: a three-character text with maxChunkSize 3 (exact boundary). -/
theorem single_segment_when_fits_witness :
    (0 : Nat) < 3 ∧ ("abc".data : List Char).length ≤ 3 ∧
    splitIntoChunks 3 (by decide) 10 ("abc".data) ("doc") =
      [{ id := baseName ("doc") ++ "_chunk_1"
         content := "abc".data
         filePath := "doc"
         startPosition := 0
         endPosition := ("abc".data.length : Int) - 1 }] :=
  ⟨by decide, by decide, single_segment_when_fits 3 10 (by decide) ("abc".data) ("doc") (by decide)⟩

/-- C6: for text longer than maxChunkSize, every emitted segment has at most
maxChunkSize * (1 + overlapPercentage/100) characters, and the inclusive
offset ranges of the emitted segments cover every position of the text. -/
theorem long_text_segments (m ov : Nat) (hm : 0 < m) (content : List Char)
    (fp : String) (h : m < content.length) :
    (∀ ch ∈ splitIntoChunks m hm ov content fp,
        (ch.content.length : ℚ) ≤ (m : ℚ) * (1 + (ov : ℚ) / 100))
    ∧ (∀ p : Nat, p < content.length →
        ∃ ch ∈ splitIntoChunks m hm ov content fp,
          ch.startPosition ≤ (p : Int) ∧ (p : Int) ≤ ch.endPosition) := by
  have hbranch : splitIntoChunks m hm ov content fp =
      splitLoop m hm (m * ov / 200) content fp 0 1 := by
    rw [splitIntoChunks, if_neg (by omega)]
  constructor
  · intro ch hch
    rw [hbranch] at hch
    have hb := (splitLoop_bounds m hm (m * ov / 200) content fp
      content.length 0 1 (by omega) ch hch).2
    have h1 : (ch.content.length : ℚ) ≤ (m : ℚ) + 2 * ((m * ov / 200 : Nat) : ℚ) := by
      calc (ch.content.length : ℚ) ≤ ((m + 2 * (m * ov / 200) : Nat) : ℚ) := by
            exact_mod_cast hb
        _ = (m : ℚ) + 2 * ((m * ov / 200 : Nat) : ℚ) := by push_cast; ring
    have h2 : ((m * ov / 200 : Nat) : ℚ) ≤ ((m * ov : Nat) : ℚ) / 200 :=
      Nat.cast_div_le
    calc (ch.content.length : ℚ)
        ≤ (m : ℚ) + 2 * ((m * ov / 200 : Nat) : ℚ) := h1
      _ ≤ (m : ℚ) + 2 * (((m * ov : Nat) : ℚ) / 200) := by linarith
      _ = (m : ℚ) * (1 + (ov : ℚ) / 100) := by push_cast; ring
  · intro p hp
    rw [hbranch]
    exact splitLoop_cover m hm (m * ov / 200) content fp content.length 0 1
      (by omega) p (Nat.zero_le p) hp

/-- C6 witness: a ten-character text split with maxChunkSize 4 and 100 percent
overlap configured. -/
theorem long_text_segments_witness :
    (0 : Nat) < 4 ∧ 4 < ("abcdefghij".data : List Char).length ∧
    ((∀ ch ∈ splitIntoChunks 4 (by decide) 100 ("abcdefghij".data) ("doc"),
        (ch.content.length : ℚ) ≤ (4 : ℚ) * (1 + (100 : ℚ) / 100))
     ∧ (∀ p : Nat, p < ("abcdefghij".data : List Char).length →
        ∃ ch ∈ splitIntoChunks 4 (by decide) 100 ("abcdefghij".data) ("doc"),
          ch.startPosition ≤ (p : Int) ∧ (p : Int) ≤ ch.endPosition)) :=
  ⟨by decide, by decide,
    long_text_segments 4 100 (by decide) ("abcdefghij".data) ("doc") (by decide)⟩

/-! Index store: embedding of IndexManager.createIndex.  JS objects keyed by
strings preserve insertion order for the keys this program uses, so both the
chunk map and the keyword map are modelled as ordered association lists. -/

/-- Chunk as handed to createIndex after enrichment (AppController enrichment
shape: a segmenter chunk plus summary and keywords). -/
structure EnrichedChunk where
  id : String
  filePath : String
  content : String
  startPosition : Int
  endPosition : Int
  summary : String
  keywords : List String
deriving Repr, DecidableEq

/-- Per-chunk record stored inside an index; content is kept only when the
storeContent option is set. -/
structure IndexedChunk where
  filePath : String
  summary : String
  keywords : List String
  startPosition : Int
  endPosition : Int
  content : Option String
deriving Repr, DecidableEq

/-- Persisted index structure built by createIndex. -/
structure IndexData where
  name : String
  chunkCount : Nat
  keywordsIndex : List (String × List String)
  chunks : List (String × IndexedChunk)
  overallSummary : String
deriving Repr, DecidableEq

/-- Ordered association-list lookup, the JS object property read. -/
def alookup {β : Type} (k : String) : List (String × β) → Option β
  | [] => none
  | (k', v) :: rest => if k' = k then some v else alookup k rest

/-- JS object property write: overwrite in place when the key exists,
otherwise append preserving insertion order. -/
def setChunk (id : String) (c : IndexedChunk) : List (String × IndexedChunk) →
    List (String × IndexedChunk)
  | [] => [(id, c)]
  | (k, v) :: rest =>
    if k = id then (id, c) :: rest else (k, v) :: setChunk id c rest

/-- One keyword insertion of createIndex: create the entry when absent, then
append the chunk id only when it is not already present. -/
def addKeyword (kw id : String) : List (String × List String) →
    List (String × List String)
  | [] => [(kw, [id])]
  | (k, ids) :: rest =>
    if k = kw then (k, if id ∈ ids then ids else ids ++ [id]) :: rest
    else (k, ids) :: addKeyword kw id rest

/-- Stored form of one enriched chunk. -/
def indexedOf (storeContent : Bool) (c : EnrichedChunk) : IndexedChunk :=
  { filePath := c.filePath
    summary := c.summary
    keywords := c.keywords
    startPosition := c.startPosition
    endPosition := c.endPosition
    content := if storeContent then some c.content else none }

/-- One iteration of the createIndex loop body over an enriched chunk. -/
def buildStep (storeContent : Bool)
    (acc : List (String × IndexedChunk) × List (String × List String))
    (c : EnrichedChunk) :
    List (String × IndexedChunk) × List (String × List String) :=
  (setChunk c.id (indexedOf storeContent c) acc.1,
   c.keywords.foldl (fun m kw => addKeyword kw c.id m) acc.2)

/-- IndexManager createOverallSummary: naive concatenation of all chunk
summaries, truncated with an ellipsis marker past the configured cap. -/
def createOverallSummary (maxLen : Nat) (chunks : List EnrichedChunk) : String :=
  let summaries := String.intercalate ("\n\n") (chunks.map (fun c => c.summary))
  if summaries.length ≤ maxLen then summaries
  else summaries.take maxLen ++ "..."

/-- IndexManager.createIndex over enriched chunks (persistence elided; the
returned value is the in-memory index object that gets written out). -/
def createIndex (storeContent : Bool) (name : String) (maxSummaryLen : Nat)
    (chunks : List EnrichedChunk) : IndexData :=
  let maps := chunks.foldl (buildStep storeContent) ([], [])
  { name := name
    chunkCount := chunks.length
    keywordsIndex := maps.2
    chunks := maps.1
    overallSummary := createOverallSummary maxSummaryLen chunks }

/-- Index data-model invariant from the specification: every segment id in
the keyword map exists in the segment map. -/
def WellFormedIndex (idx : IndexData) : Prop :=
  ∀ p ∈ idx.keywordsIndex, ∀ id ∈ p.2, (alookup id idx.chunks).isSome

instance (idx : IndexData) : Decidable (WellFormedIndex idx) := by
  unfold WellFormedIndex; infer_instance

theorem alookup_setChunk_isSome (i k : String) (c : IndexedChunk) :
    ∀ m : List (String × IndexedChunk),
      (alookup i m).isSome → (alookup i (setChunk k c m)).isSome := by
  intro m
  induction m with
  | nil => simp [alookup]
  | cons hd tl ih =>
    obtain ⟨k', v⟩ := hd
    intro h
    rw [setChunk]
    by_cases hk : k' = k
    · rw [if_pos hk]
      rw [alookup] at h ⊢
      by_cases hik : k = i
      · simp [hik]
      · rw [if_neg hik]
        rw [if_neg (hk ▸ hik)] at h
        exact h
    · rw [if_neg hk]
      rw [alookup] at h ⊢
      by_cases hik : k' = i
      · simp [hik]
      · rw [if_neg hik] at h ⊢
        exact ih h

theorem alookup_setChunk_self_isSome (k : String) (c : IndexedChunk) :
    ∀ m : List (String × IndexedChunk), (alookup k (setChunk k c m)).isSome := by
  intro m
  induction m with
  | nil => simp [setChunk, alookup]
  | cons hd tl ih =>
    obtain ⟨k', v⟩ := hd
    rw [setChunk]
    by_cases hk : k' = k
    · rw [if_pos hk]
      simp [alookup]
    · rw [if_neg hk]
      rw [alookup, if_neg hk]
      exact ih

/-- Entry invariant preserved by a single addKeyword call: a key predicate,
deduplication of each id list, and an id predicate for every stored id. -/
theorem addKeyword_entries (Q R : String → Prop) (kw id : String) :
    ∀ m : List (String × List String),
      (∀ p ∈ m, Q p.1 ∧ p.2.Nodup ∧ ∀ x ∈ p.2, R x) → Q kw → R id →
      ∀ p ∈ addKeyword kw id m, Q p.1 ∧ p.2.Nodup ∧ ∀ x ∈ p.2, R x := by
  intro m
  induction m with
  | nil =>
    intro _ hq hr p hp
    rw [addKeyword] at hp
    simp only [List.mem_singleton] at hp
    subst hp
    exact ⟨hq, List.nodup_singleton _, by simpa using hr⟩
  | cons hd tl ih =>
    obtain ⟨k, ids⟩ := hd
    intro hm hq hr p hp
    have hhd := hm (k, ids) (List.mem_cons_self _ _)
    rw [addKeyword] at hp
    by_cases hk : k = kw
    · rw [if_pos hk] at hp
      rcases List.mem_cons.mp hp with hpe | hpt
      · subst hpe
        refine ⟨hhd.1, ?_, ?_⟩
        · by_cases hin : id ∈ ids
          · simpa [hin] using hhd.2.1
          · rw [if_neg hin, List.nodup_append]
            exact ⟨hhd.2.1, List.nodup_singleton _, by simpa using hin⟩
        · intro x hx
          by_cases hin : id ∈ ids
          · exact hhd.2.2 x (by simpa [hin] using hx)
          · rw [if_neg hin] at hx
            rcases List.mem_append.mp hx with hx | hx
            · exact hhd.2.2 x hx
            · exact (List.mem_singleton.mp hx) ▸ hr
      · exact hm p (List.mem_cons_of_mem _ hpt)
    · rw [if_neg hk] at hp
      rcases List.mem_cons.mp hp with hpe | hpt
      · exact hpe ▸ hhd
      · exact ih (fun q hq' => hm q (List.mem_cons_of_mem _ hq')) hq hr p hpt

/-- Entry invariant preserved by the keyword loop of one createIndex
iteration, which inserts the same chunk id under every keyword. -/
theorem kwFold_entries (Q R : String → Prop) (id : String) :
    ∀ (kws : List String) (m : List (String × List String)),
      (∀ p ∈ m, Q p.1 ∧ p.2.Nodup ∧ ∀ x ∈ p.2, R x) →
      (∀ kw ∈ kws, Q kw) → R id →
      ∀ p ∈ kws.foldl (fun mm kw => addKeyword kw id mm) m,
        Q p.1 ∧ p.2.Nodup ∧ ∀ x ∈ p.2, R x := by
  intro kws
  induction kws with
  | nil => intro m hm _ _ p hp; exact hm p hp
  | cons kw rest ih =>
    intro m hm hkws hr p hp
    rw [List.foldl_cons] at hp
    exact ih (addKeyword kw id m)
      (addKeyword_entries Q R kw id m hm (hkws kw (List.mem_cons_self _ _)) hr)
      (fun w hw => hkws w (List.mem_cons_of_mem _ hw)) hr p hp

/-- Invariant carried through the createIndex chunk loop: every keyword map
entry has a key satisfying P, a deduplicated id list, and ids that are keys
of the chunk map built so far. -/
theorem buildFold_entries (sc : Bool) (P : String → Prop) :
    ∀ (cs : List EnrichedChunk)
      (acc : List (String × IndexedChunk) × List (String × List String)),
      (∀ p ∈ acc.2, P p.1 ∧ p.2.Nodup ∧ ∀ x ∈ p.2, (alookup x acc.1).isSome) →
      (∀ c ∈ cs, ∀ kw ∈ c.keywords, P kw) →
      ∀ p ∈ (cs.foldl (buildStep sc) acc).2,
        P p.1 ∧ p.2.Nodup ∧ ∀ x ∈ p.2, (alookup x (cs.foldl (buildStep sc) acc).1).isSome := by
  intro cs
  induction cs with
  | nil => intro acc hacc _ p hp; exact hacc p hp
  | cons c rest ih =>
    intro acc hacc hcs p hp
    rw [List.foldl_cons] at hp ⊢
    refine ih (buildStep sc acc c) ?_ (fun d hd => hcs d (List.mem_cons_of_mem _ hd)) p hp
    intro q hq
    refine kwFold_entries P (fun x => (alookup x (buildStep sc acc c).1).isSome) c.id
      c.keywords acc.2 ?_ (fun kw hkw => hcs c (List.mem_cons_self _ _) kw hkw) ?_ q hq
    · intro q' hq'
      obtain ⟨h1, h2, h3⟩ := hacc q' hq'
      exact ⟨h1, h2, fun x hx => alookup_setChunk_isSome x c.id (indexedOf sc c) acc.1 (h3 x hx)⟩
    · exact alookup_setChunk_self_isSome c.id (indexedOf sc c) acc.1

/-- Keyword-map invariant of createIndex: keys are stored verbatim from some
chunk's keyword list, id lists are deduplicated, and every stored id is a key
of the chunk map. -/
theorem createIndex_keywords_inv (sc : Bool) (nm : String) (ml : Nat)
    (cs : List EnrichedChunk) :
    ∀ p ∈ (createIndex sc nm ml cs).keywordsIndex,
      (∃ c ∈ cs, p.1 ∈ c.keywords) ∧ p.2.Nodup ∧
      ∀ x ∈ p.2, (alookup x (createIndex sc nm ml cs).chunks).isSome := by
  intro p hp
  exact buildFold_entries sc (fun k => ∃ c ∈ cs, k ∈ c.keywords) cs ([], [])
    (by simp) (fun c hc kw hkw => ⟨c, hc, hkw⟩) p hp

/-- Every index built by createIndex satisfies the data-model invariant. -/
theorem createIndex_wellFormed (sc : Bool) (nm : String) (ml : Nat)
    (cs : List EnrichedChunk) : WellFormedIndex (createIndex sc nm ml cs) :=
  fun p hp id hid => (createIndex_keywords_inv sc nm ml cs p hp).2.2 id hid

/-- Sample enriched chunk carrying a capitalised keyword. -/
def sampleEnriched : EnrichedChunk :=
  { id := "doc_chunk_1"
    filePath := "doc"
    content := "c"
    startPosition := 0
    endPosition := 0
    summary := "s"
    keywords := ["Pricing"] }

/-- C3 counterexample: createIndex stores the keyword key verbatim, so a
capitalised keyword yields a key that is not lowercase. -/
theorem keyword_map_lowercase_cex :
    ((createIndex true ("idx") 2000 [sampleEnriched]).keywordsIndex.map Prod.fst)
      = [("Pricing" : String)]
    ∧ ¬ (∀ c ∈ ("Pricing" : String).data, c.toLower = c) := by
  constructor
  · decide
  · decide

/-- C3 (amended): at index-build time every key of the keyword map is one of
the attached keywords stored verbatim (no lowercase normalisation), and each
key's segment-id list is deduplicated. -/
theorem keyword_map_verbatim (sc : Bool) (nm : String) (ml : Nat)
    (cs : List EnrichedChunk) :
    ∀ p ∈ (createIndex sc nm ml cs).keywordsIndex,
      (∃ c ∈ cs, p.1 ∈ c.keywords) ∧ p.2.Nodup :=
  fun p hp =>
    ⟨(createIndex_keywords_inv sc nm ml cs p hp).1,
     (createIndex_keywords_inv sc nm ml cs p hp).2.1⟩

/-- C3 witness: the amended statement at the sample index entry. -/
theorem keyword_map_verbatim_witness :
    ((("Pricing" : String), ["doc_chunk_1"])
        ∈ (createIndex true ("idx") 2000 [sampleEnriched]).keywordsIndex)
    ∧ ((∃ c ∈ [sampleEnriched], ("Pricing" : String) ∈ c.keywords)
        ∧ (["doc_chunk_1"] : List String).Nodup) :=
  ⟨by decide,
   keyword_map_verbatim true ("idx") 2000 [sampleEnriched]
     (("Pricing" : String), ["doc_chunk_1"]) (by decide)⟩

/-! Retriever: embedding of IndexManager.findRelevantChunks and its three
strategies.  The language-model prompt build, transport and response parse
form one deterministic pipeline from a group's (id, summary) entries to a
parsed id list; the specification treats transport as an opaque external
collaborator, so that pipeline is a select oracle returning either the
parsed ids or a transport failure. -/

/-- Oracle for one chunk-selection collaborator round trip over the (id,
summary) entries of a group. -/
abbrev SelectOracle := List (String × String) → Except String (List String)

/-- Oracle for readChunkFromFile; the source catches its own errors and
returns placeholder text, so the oracle is total. -/
abbrev ReadOracle := String → Int → Int → String

/-- JS truthiness default applied to a stored summary: empty means absent. -/
def summaryOrDefault (s : String) : String :=
  if s = "" then "No summary available" else s

/-- Entries handed to the selection prompt builder, in chunk-map insertion
order, mirroring Object.entries in both strategies. -/
def chunkEntries (idx : IndexData) : List (String × String) :=
  idx.chunks.map (fun p => (p.1, summaryOrDefault p.2.summary))

/-- Grouping loop with an explicit fuel argument; for a positive group size
the fuel (the list length) never runs out, so this equals the JS slicing
loop of the split strategy. -/
def groupsGo {α : Type} (n : Nat) : Nat → List α → List (List α)
  | _, [] => []
  | 0, _ :: _ => []
  | fuel + 1, x :: xs => (x :: xs).take n :: groupsGo n fuel ((x :: xs).drop n)

/-- Partition into consecutive groups of size n (last group may be short). -/
def groupsOf {α : Type} (n : Nat) (l : List α) : List (List α) :=
  groupsGo n l.length l

/-- Relevance weight the split strategy assigns to the rank-k id of group i
when the group's collaborator round trip returned n ids in total. -/
def groupScore (total i n k : Nat) : ℚ :=
  ((total - i : Nat) : ℚ) + ((n - k : Nat) : ℚ) / (n : ℚ)

/-- The map over one group's returned ids, pairing each id with its weight;
k is the running rank, n the full result-list length. -/
def weightGo (total i n : Nat) : Nat → List String → List (String × ℚ)
  | _, [] => []
  | k, id :: rest => (id, groupScore total i n k) :: weightGo total i n (k + 1) rest

/-- Weighted results of one group of the split strategy. -/
def weightIds (total i : Nat) (ids : List String) : List (String × ℚ) :=
  weightGo total i ids.length 0 ids

/-- The per-group loop of the split strategy: query the oracle group by
group and concatenate the weighted results; the first failure aborts. -/
def splitCollect (select : SelectOracle) (total : Nat) :
    Nat → List (List (String × String)) → Except String (List (String × ℚ))
  | _, [] => Except.ok []
  | i, g :: gs =>
    match select g with
    | Except.error e => Except.error e
    | Except.ok ids =>
      match splitCollect select total (i + 1) gs with
      | Except.error e => Except.error e
      | Except.ok rest => Except.ok (weightIds total i ids ++ rest)

/-- Descending-by-score order used on the concatenated weighted results. -/
def scoreGE (a b : String × ℚ) : Prop := b.2 ≤ a.2

instance : DecidableRel scoreGE :=
  fun a b => inferInstanceAs (Decidable (b.2 ≤ a.2))

instance : IsTotal (String × ℚ) scoreGE := ⟨fun a b => le_total b.2 a.2⟩

instance : IsTrans (String × ℚ) scoreGE := ⟨fun _ _ _ h1 h2 => le_trans h2 h1⟩

/-- The JS array sort on score descending; that sort is stable, and a stable
sort is uniquely determined by the comparator, so insertion sort placing
later equal-scored entries after earlier ones realises it. -/
def scoreDescSort (l : List (String × ℚ)) : List (String × ℚ) :=
  l.insertionSort scoreGE

/-- IndexManager split (grouped) strategy producing ordered unique ids. -/
def splitStrategy (idx : IndexData) (select : SelectOracle) (n : Nat) :
    Except String (List String) :=
  match splitCollect select (groupsOf n (chunkEntries idx)).length 0
      (groupsOf n (chunkEntries idx)) with
  | Except.error e => Except.error e
  | Except.ok w => Except.ok (dedupFirst ((scoreDescSort w).map Prod.fst))

/-- IndexManager simple strategy: one collaborator round trip over all
chunk entries, returning the parsed ids unchanged. -/
def simpleStrategy (idx : IndexData) (select : SelectOracle) :
    Except String (List String) :=
  select (chunkEntries idx)

/-- Punctuation class stripped from the question by the keyword fallback. -/
def punctChars : List Char := ".,/#!$%^&*;:\x7b\x7d=-_\x60~()".data

/-- ASCII lowercasing as JS toLowerCase on the characters this code meets. -/
def lowerStr (s : String) : String := String.mk (s.data.map Char.toLower)

/-- IndexManager extractKeywordsFromQuestion: lowercase, strip punctuation,
split on whitespace, keep words longer than two characters that are not stop
words, and deduplicate keeping first occurrences. -/
def extractKeywordsFromQuestion (stopWords : List String) (question : String) :
    List String :=
  let cleanChars := (lowerStr question).data.filter (fun c => !punctChars.contains c)
  let words := (cleanChars.splitOnP (fun c => c.isWhitespace)).map (fun w => String.mk w)
  dedupFirst (words.filter (fun w => decide (2 < w.length) && !stopWords.contains (lowerStr w)))

/-- One increment of the per-chunk match counter object.  A chunk id naming
an inherited Object.prototype property would skip the init and concatenate
onto the inherited function, yielding a string score without raising; ids
emitted by the segmenter always contain the substring _chunk_, so on this
program the counter stays a number and the model tracks the source exactly. -/
def bumpScore (id : String) : List (String × Nat) → List (String × Nat)
  | [] => [(id, 1)]
  | (k, v) :: rest =>
    if k = id then (k, v + 1) :: rest else (k, v) :: bumpScore id rest

/-- Property names of Object.prototype, inherited by every JSON-parsed plain
object.  Reading one of them on the keyword map when it is not an own key
yields the inherited function (or, for the last entry, the prototype object):
a truthy, non-iterable value. -/
def protoKeys : List String :=
  ["constructor", "hasOwnProperty", "isPrototypeOf", "propertyIsEnumerable",
   "toLocaleString", "toString", "valueOf", "__defineGetter__",
   "__defineSetter__", "__lookupGetter__", "__lookupSetter__", "__proto__"]

/-- The read of one posting list in the fallback, including the prototype
chain: an own key yields the stored array; a missing key naming an inherited
Object.prototype property yields a truthy non-iterable value, so the
or-default keeps it and the for..of over it throws a TypeError; any other
missing key yields undefined, which the or-default replaces with []. -/
def matchingIdsOf (kwIndex : List (String × List String)) (kw : String) :
    Except String (List String) :=
  match alookup kw kwIndex with
  | some ids => Except.ok ids
  | none =>
    if protoKeys.contains kw then
      Except.error ("TypeError: matchingChunkIds is not iterable")
    else Except.ok []

/-- The keyword loop of the fallback: accumulate match counts over every
question keyword's posting list; the first keyword whose posting-list read
throws aborts the loop with that error. -/
def accumulateScoresE (kwIndex : List (String × List String)) :
    List String → List (String × Nat) → Except String (List (String × Nat))
  | [], m => Except.ok m
  | kw :: rest, m =>
    match matchingIdsOf kwIndex kw with
    | Except.error e => Except.error e
    | Except.ok ids =>
      accumulateScoresE kwIndex rest (ids.foldl (fun mm id => bumpScore id mm) m)

/-- Match counts of the keyword fallback starting from the empty counter. -/
def accumulateScores (kwIndex : List (String × List String))
    (qkws : List String) : Except String (List (String × Nat)) :=
  accumulateScoresE kwIndex qkws []

/-- Chunk with resolved content and a relevance score, the element type the
retriever returns (rank for the primary path, match count for the fallback). -/
structure ScoredChunk where
  id : String
  filePath : String
  summary : String
  keywords : List String
  startPosition : Int
  endPosition : Int
  content : String
  relevanceScore : Int
deriving Repr, DecidableEq

/-- Content resolution: a stored falsy (absent or empty) content triggers a
re-read from the source file through the total read oracle. -/
def resolveContent (readFile : ReadOracle) (fp : String) (s e : Int)
    (stored : Option String) : String :=
  match stored with
  | some c => if c = "" then readFile fp s e else c
  | none => readFile fp s e

/-- Descending order on match counts for the fallback ranking. -/
def countGE (a b : String × Nat) : Prop := b.2 ≤ a.2

instance : DecidableRel countGE :=
  fun a b => inferInstanceAs (Decidable (b.2 ≤ a.2))

/-- Result assembly loop of the keyword fallback: each ranked id is read
from the chunk map without a guard, so a dangling id is a thrown TypeError,
modelled as an error value. -/
def fallbackAssemble (idx : IndexData) (readFile : ReadOracle)
    (scores : List (String × Nat)) : List String → Except String (List ScoredChunk)
  | [] => Except.ok []
  | id :: rest =>
    match alookup id idx.chunks with
    | none => Except.error ("TypeError: cannot read content of missing chunk " ++ id)
    | some c =>
      match fallbackAssemble idx readFile scores rest with
      | Except.error e => Except.error e
      | Except.ok tail =>
        Except.ok
          ({ id := id
             filePath := c.filePath
             summary := c.summary
             keywords := c.keywords
             startPosition := c.startPosition
             endPosition := c.endPosition
             content := resolveContent readFile c.filePath c.startPosition c.endPosition c.content
             relevanceScore := (((alookup id scores).getD 0 : Nat) : Int) } :: tail)

/-- IndexManager keyword fallback: extract question keywords, accumulate
match counts, rank descending and assemble the top maxChunksPerQuery; an
error thrown by a posting-list read is rethrown by the fallback's catch and
propagates to the caller. -/
def keywordFallback (stopWords : List String) (maxChunks : Nat)
    (readFile : ReadOracle) (idx : IndexData) (question : String) :
    Except String (List ScoredChunk) :=
  let qkws := extractKeywordsFromQuestion stopWords question
  match accumulateScores idx.keywordsIndex qkws with
  | Except.error e => Except.error e
  | Except.ok scores =>
    fallbackAssemble idx readFile scores
      (((scores.insertionSort countGE).map Prod.fst).take maxChunks)

/-- Primary-path result assembly: ids missing from the chunk map are
skipped with a warning; the relevance score is the rank in the full id
list; content resolution errors fall back to placeholder text inside the
read oracle. -/
def primaryAssemble (idx : IndexData) (readFile : ReadOracle)
    (allIds : List String) : List String → List ScoredChunk
  | [] => []
  | id :: rest =>
    match alookup id idx.chunks with
    | none => primaryAssemble idx readFile allIds rest
    | some c =>
      { id := id
        filePath := c.filePath
        summary := c.summary
        keywords := c.keywords
        startPosition := c.startPosition
        endPosition := c.endPosition
        content := resolveContent readFile c.filePath c.startPosition c.endPosition c.content
        relevanceScore := (allIds.indexOf id : Int) } :: primaryAssemble idx readFile allIds rest

/-- Ascending relevance order used on the primary-path results. -/
def relevanceLE (a b : ScoredChunk) : Prop := a.relevanceScore ≤ b.relevanceScore

instance : DecidableRel relevanceLE :=
  fun a b => inferInstanceAs (Decidable (a.relevanceScore ≤ b.relevanceScore))

/-- IndexManager.findRelevantChunks with the primary-strategy outcome as an
argument: the try block assembles and ranks the primary ids, and the catch
block delegates unconditionally to the keyword fallback. -/
def findRelevantChunks (stopWords : List String) (maxChunks : Nat)
    (readFile : ReadOracle) (idx : IndexData) (question : String)
    (primary : Except String (List String)) : Except String (List ScoredChunk) :=
  match primary with
  | Except.ok ids =>
    Except.ok ((primaryAssemble idx readFile ids (ids.take maxChunks)).insertionSort relevanceLE)
  | Except.error _ => keywordFallback stopWords maxChunks readFile idx question

theorem weightGo_map_fst (t i n : Nat) :
    ∀ (l : List String) (k : Nat), (weightGo t i n k l).map Prod.fst = l := by
  intro l
  induction l with
  | nil => intro k; rfl
  | cons x xs ih => intro k; simp [weightGo, ih (k + 1)]

/-- The per-group weight is antitone in the rank. -/
theorem groupScore_anti (t i n k k' : Nat) (h : k ≤ k') :
    groupScore t i n k' ≤ groupScore t i n k := by
  unfold groupScore
  rcases Nat.eq_zero_or_pos n with hn | hn
  · subst hn; simp
  · have hc : (0 : ℚ) < (n : ℚ) := by exact_mod_cast hn
    have hnk : ((n - k' : Nat) : ℚ) ≤ ((n - k : Nat) : ℚ) := by
      exact_mod_cast Nat.sub_le_sub_left h n
    have := (div_le_div_iff_of_pos_right hc).mpr hnk
    linarith

theorem weightGo_score_le (t i n : Nat) :
    ∀ (l : List String) (k : Nat) (p : String × ℚ),
      p ∈ weightGo t i n k l → p.2 ≤ groupScore t i n k := by
  intro l
  induction l with
  | nil => intro k p hp; simp [weightGo] at hp
  | cons x xs ih =>
    intro k p hp
    rw [weightGo] at hp
    rcases List.mem_cons.mp hp with h | h
    · subst h; exact le_refl _
    · exact le_trans (ih (k + 1) p h) (groupScore_anti t i n k (k + 1) (by omega))

/-- One group's weighted results come out already sorted descending. -/
theorem weightGo_sorted (t i n : Nat) :
    ∀ (l : List String) (k : Nat), (weightGo t i n k l).Sorted scoreGE := by
  intro l
  induction l with
  | nil => intro k; simp [weightGo]
  | cons x xs ih =>
    intro k
    rw [weightGo, List.sorted_cons]
    exact ⟨fun b hb => le_trans (weightGo_score_le t i n xs (k + 1) b hb)
      (groupScore_anti t i n k (k + 1) (by omega)), ih (k + 1)⟩

theorem weightGo_mem_getElem (t i n : Nat) :
    ∀ (l : List String) (k0 k : Nat) (id : String), l[k]? = some id →
      (id, groupScore t i n (k0 + k)) ∈ weightGo t i n k0 l := by
  intro l
  induction l with
  | nil => intro k0 k id h; simp at h
  | cons x xs ih =>
    intro k0 k id h
    cases k with
    | zero =>
      simp only [List.getElem?_cons_zero, Option.some.injEq] at h
      subst h
      rw [weightGo]
      simp
    | succ k' =>
      have h' : xs[k']? = some id := by simpa using h
      have hmem := ih (k0 + 1) k' id h'
      have heq : k0 + 1 + k' = k0 + (k' + 1) := by omega
      rw [heq] at hmem
      rw [weightGo]
      exact List.mem_cons_of_mem _ hmem

/-- Positional score characterisation of the split-strategy loop output. -/
theorem splitCollect_mem (select : SelectOracle) (T : Nat) :
    ∀ (gs : List (List (String × String))) (i : Nat) (w : List (String × ℚ))
      (gi : Nat) (g : List (String × String)) (ids : List String) (k : Nat) (id : String),
      splitCollect select T i gs = Except.ok w →
      gs[gi]? = some g → select g = Except.ok ids → ids[k]? = some id →
      (id, groupScore T (i + gi) ids.length k) ∈ w := by
  intro gs
  induction gs with
  | nil => intro i w gi g ids k id hw hg _ _; simp at hg
  | cons g0 rest ih =>
    intro i w gi g ids k id hw hg hsel hid
    rw [splitCollect] at hw
    cases hsel0 : select g0 with
    | error e => rw [hsel0] at hw; simp at hw
    | ok ids0 =>
      rw [hsel0] at hw
      cases hrest : splitCollect select T (i + 1) rest with
      | error e => rw [hrest] at hw; simp at hw
      | ok w' =>
        rw [hrest] at hw
        simp only [Except.ok.injEq] at hw
        subst hw
        cases gi with
        | zero =>
          simp only [List.getElem?_cons_zero, Option.some.injEq] at hg
          subst hg
          rw [hsel0] at hsel
          simp only [Except.ok.injEq] at hsel
          have hmem := weightGo_mem_getElem T i ids.length ids 0 k id hid
          simp only [Nat.zero_add] at hmem
          have heq : i + 0 = i := by omega
          rw [heq, hsel]
          exact List.mem_append_left _ hmem
        | succ gi' =>
          have hg' : rest[gi']? = some g := by simpa using hg
          have hmem := ih (i + 1) w' gi' g ids k id hrest hg' hsel hid
          have heq : i + 1 + gi' = i + (gi' + 1) := by omega
          rw [heq] at hmem
          exact List.mem_append_right _ hmem

/-- When the whole entry list fits in one group the grouping is trivial. -/
theorem groupsOf_singleton {α : Type} (n : Nat) (l : List α) (_hn : 0 < n)
    (h0 : 0 < l.length) (hle : l.length ≤ n) : groupsOf n l = [l] := by
  unfold groupsOf
  cases l with
  | nil => simp at h0
  | cons x xs =>
    simp only [List.length_cons]
    rw [groupsGo]
    rw [List.take_of_length_le hle, List.drop_eq_nil_of_le hle]
    cases hxs : xs.length <;> simp [groupsGo]

/-- Enriched chunk template for the grouped-strategy counterexample index. -/
def groupedCexChunk (i s : String) : EnrichedChunk :=
  { id := i
    filePath := "doc"
    content := "x"
    startPosition := 0
    endPosition := 0
    summary := s
    keywords := [] }

/-- Four-chunk index, so a group size of three yields two groups. -/
def groupedCexIndex : IndexData :=
  createIndex true ("cex") 2000
    [groupedCexChunk ("c1") ("s1"), groupedCexChunk ("c2") ("s2"),
     groupedCexChunk ("c3") ("s3"), groupedCexChunk ("c4") ("s4")]

/-- Oracle returning two ids for the full first group and none otherwise. -/
def groupedCexSelect : SelectOracle :=
  fun g => if g.length = 3 then Except.ok ["a", "b"] else Except.ok []

/-- Score formula asserted by the claim, with the configured group size in
the denominator. -/
def specClaimScore (totalGroups groupIndex groupSize rankInGroup : Nat) : ℚ :=
  ((totalGroups - groupIndex : Nat) : ℚ)
    + ((groupSize - rankInGroup : Nat) : ℚ) / (groupSize : ℚ)


instance exceptDecEq {ε α : Type} [DecidableEq ε] [DecidableEq α] :
    DecidableEq (Except ε α)
  | Except.ok a, Except.ok b =>
    if h : a = b then Decidable.isTrue (by rw [h])
    else Decidable.isFalse (by intro hh; cases hh; exact h rfl)
  | Except.ok _, Except.error _ => Decidable.isFalse (by intro hh; cases hh)
  | Except.error _, Except.ok _ => Decidable.isFalse (by intro hh; cases hh)
  | Except.error a, Except.error b =>
    if h : a = b then Decidable.isTrue (by rw [h])
    else Decidable.isFalse (by intro hh; cases hh; exact h rfl)

/-- C2 counterexample: with group size 3 and a first-group result list of two
ids, the code assigns rank 1 the score 2 + 1/2 (dividing by the result-list
length), while the formula of the claim gives 2 + 2/3. -/
theorem grouped_score_formula_cex :
    splitCollect groupedCexSelect (groupsOf 3 (chunkEntries groupedCexIndex)).length 0
        (groupsOf 3 (chunkEntries groupedCexIndex))
      = Except.ok [(("a" : String), (3 : ℚ)), (("b" : String), (5 : ℚ) / 2)]
    ∧ (5 : ℚ) / 2 ≠ specClaimScore 2 0 3 1 := by
  constructor
  · have hgroups : groupsOf 3 (chunkEntries groupedCexIndex)
        = [[(("c1" : String), ("s1" : String)), (("c2" : String), ("s2" : String)),
            (("c3" : String), ("s3" : String))],
           [(("c4" : String), ("s4" : String))]] := by decide
    rw [hgroups]
    norm_num [splitCollect, groupedCexSelect, weightIds, weightGo, groupScore]
  · norm_num [specClaimScore]

/-- C2 (amended): each id at rank k of group gi is weighted
(totalGroups - gi) + (resultLen - k)/resultLen where resultLen is the length
of the id list returned for that group; the concatenation is sorted
descending by score and deduplicated keeping the first occurrence. -/
theorem grouped_scoring_amended (idx : IndexData) (select : SelectOracle) (n : Nat)
    (w : List (String × ℚ))
    (hw : splitCollect select (groupsOf n (chunkEntries idx)).length 0
        (groupsOf n (chunkEntries idx)) = Except.ok w) :
    splitStrategy idx select n = Except.ok (dedupFirst ((scoreDescSort w).map Prod.fst))
    ∧ ((scoreDescSort w).map Prod.snd).Sorted (fun a b => b ≤ a)
    ∧ (∀ gi g ids k id,
        (groupsOf n (chunkEntries idx))[gi]? = some g →
        select g = Except.ok ids →
        ids[k]? = some id →
        (id, (((groupsOf n (chunkEntries idx)).length - gi : Nat) : ℚ)
              + ((ids.length - k : Nat) : ℚ) / (ids.length : ℚ)) ∈ w)
    ∧ (dedupFirst ((scoreDescSort w).map Prod.fst)).Nodup := by
  refine ⟨?_, ?_, ?_, dedupFirst_nodup _⟩
  · unfold splitStrategy
    rw [hw]
  · have hs : (scoreDescSort w).Sorted scoreGE := List.sorted_insertionSort scoreGE w
    rw [List.Sorted, List.pairwise_map]
    exact hs
  · intro gi g ids k id hg hsel hid
    have hmem := splitCollect_mem select (groupsOf n (chunkEntries idx)).length
      (groupsOf n (chunkEntries idx)) 0 w gi g ids k id hw hg hsel hid
    simpa [groupScore] using hmem

/-- C2 witness: the amended statement at the counterexample index, with the
weighted list given as the explicit loop output. -/
theorem grouped_scoring_amended_witness :
    (splitCollect groupedCexSelect (groupsOf 3 (chunkEntries groupedCexIndex)).length 0
        (groupsOf 3 (chunkEntries groupedCexIndex))
      = Except.ok (weightIds 2 0 ["a", "b"] ++ (weightIds 2 1 [] ++ [])))
    ∧ (splitStrategy groupedCexIndex groupedCexSelect 3
        = Except.ok (dedupFirst ((scoreDescSort
            (weightIds 2 0 ["a", "b"] ++ (weightIds 2 1 [] ++ []))).map Prod.fst))
      ∧ ((scoreDescSort
            (weightIds 2 0 ["a", "b"] ++ (weightIds 2 1 [] ++ []))).map Prod.snd).Sorted
            (fun a b => b ≤ a)
      ∧ (∀ gi g ids k id,
          (groupsOf 3 (chunkEntries groupedCexIndex))[gi]? = some g →
          groupedCexSelect g = Except.ok ids →
          ids[k]? = some id →
          (id, (((groupsOf 3 (chunkEntries groupedCexIndex)).length - gi : Nat) : ℚ)
                + ((ids.length - k : Nat) : ℚ) / (ids.length : ℚ))
            ∈ weightIds 2 0 ["a", "b"] ++ (weightIds 2 1 [] ++ []))
      ∧ (dedupFirst ((scoreDescSort
            (weightIds 2 0 ["a", "b"] ++ (weightIds 2 1 [] ++ []))).map Prod.fst)).Nodup) :=
  ⟨rfl,
   grouped_scoring_amended groupedCexIndex groupedCexSelect 3
     (weightIds 2 0 ["a", "b"] ++ (weightIds 2 1 [] ++ [])) rfl⟩

/-- C8: when the whole index fits in one group, the grouped strategy returns
exactly the id list of the simple strategy deduplicated by first occurrence,
so both produce the same relative ordering of segment ids given an identical
collaborator response. -/
theorem grouped_single_group_matches_simple (idx : IndexData) (select : SelectOracle)
    (n : Nat) (hn : 0 < n) (h0 : 0 < (chunkEntries idx).length)
    (hle : (chunkEntries idx).length ≤ n) :
    splitStrategy idx select n = Except.map dedupFirst (simpleStrategy idx select) := by
  have hg : groupsOf n (chunkEntries idx) = [chunkEntries idx] :=
    groupsOf_singleton n (chunkEntries idx) hn h0 hle
  unfold splitStrategy simpleStrategy
  rw [hg]
  cases hsel : select (chunkEntries idx) with
  | error e => simp [splitCollect, hsel, Except.map]
  | ok ids =>
    have hcol : splitCollect select [chunkEntries idx].length 0 [chunkEntries idx]
        = Except.ok (weightIds 1 0 ids) := by
      rw [splitCollect, hsel]
      simp [splitCollect]
    rw [hcol]
    show Except.ok (dedupFirst ((scoreDescSort (weightIds 1 0 ids)).map Prod.fst))
        = Except.map dedupFirst (Except.ok ids)
    have hsort : scoreDescSort (weightIds 1 0 ids) = weightIds 1 0 ids :=
      (weightGo_sorted 1 0 ids.length ids 0).insertionSort_eq
    have hfst : (weightIds 1 0 ids).map Prod.fst = ids :=
      weightGo_map_fst 1 0 ids.length ids 0
    rw [hsort, hfst]
    simp [Except.map]

/-- C8 witness: a one-chunk index with group size 50. -/
theorem grouped_single_group_matches_simple_witness :
    (0 : Nat) < 50
    ∧ 0 < (chunkEntries (createIndex true ("idx") 2000 [sampleEnriched])).length
    ∧ (chunkEntries (createIndex true ("idx") 2000 [sampleEnriched])).length ≤ 50
    ∧ splitStrategy (createIndex true ("idx") 2000 [sampleEnriched])
        (fun _ => Except.ok ["a"]) 50
      = Except.map dedupFirst (simpleStrategy (createIndex true ("idx") 2000 [sampleEnriched])
          (fun _ => Except.ok ["a"])) :=
  ⟨by decide, by decide, by decide,
   grouped_single_group_matches_simple (createIndex true ("idx") 2000 [sampleEnriched])
     (fun _ => Except.ok ["a"]) 50 (by decide) (by decide) (by decide)⟩

theorem alookup_mem {β : Type} (k : String) (v : β) :
    ∀ m : List (String × β), alookup k m = some v → (k, v) ∈ m := by
  intro m
  induction m with
  | nil => intro h; simp [alookup] at h
  | cons hd tl ih =>
    obtain ⟨k', v'⟩ := hd
    intro h
    rw [alookup] at h
    by_cases hk : k' = k
    · rw [if_pos hk] at h
      simp only [Option.some.injEq] at h
      rw [hk, h]
      exact List.mem_cons_self _ _
    · rw [if_neg hk] at h
      exact List.mem_cons_of_mem _ (ih h)

theorem bumpScore_keys (P : String → Prop) (id : String) :
    ∀ m : List (String × Nat), (∀ p ∈ m, P p.1) → P id →
      ∀ p ∈ bumpScore id m, P p.1 := by
  intro m
  induction m with
  | nil =>
    intro _ hid p hp
    rw [bumpScore] at hp
    simp only [List.mem_singleton] at hp
    rw [hp]
    exact hid
  | cons hd tl ih =>
    obtain ⟨k, v⟩ := hd
    intro hm hid p hp
    rw [bumpScore] at hp
    by_cases hk : k = id
    · rw [if_pos hk] at hp
      rcases List.mem_cons.mp hp with h | h
      · rw [h]; exact hm (k, v) (List.mem_cons_self _ _)
      · exact hm p (List.mem_cons_of_mem _ h)
    · rw [if_neg hk] at hp
      rcases List.mem_cons.mp hp with h | h
      · rw [h]; exact hm (k, v) (List.mem_cons_self _ _)
      · exact ih (fun q hq => hm q (List.mem_cons_of_mem _ hq)) hid p h

theorem bumpFold_keys (P : String → Prop) :
    ∀ (ids : List String) (m : List (String × Nat)),
      (∀ p ∈ m, P p.1) → (∀ id ∈ ids, P id) →
      ∀ p ∈ ids.foldl (fun mm id => bumpScore id mm) m, P p.1 := by
  intro ids
  induction ids with
  | nil => intro m hm _ p hp; exact hm p hp
  | cons id rest ih =>
    intro m hm hids p hp
    rw [List.foldl_cons] at hp
    exact ih (bumpScore id m)
      (bumpScore_keys P id m hm (hids id (List.mem_cons_self _ _)))
      (fun x hx => hids x (List.mem_cons_of_mem _ hx)) p hp

/-- The keyword loop of the fallback succeeds when no question keyword hits
an inherited Object.prototype property absent from the keyword map, and then
every key of the accumulated counters is an id drawn from some posting list
of the keyword map. -/
theorem accumulateScoresE_ok (kwIndex : List (String × List String))
    (P : String → Prop) (hkw : ∀ q ∈ kwIndex, ∀ id ∈ q.2, P id) :
    ∀ (kws : List String) (m : List (String × Nat)),
      (∀ kw ∈ kws, (alookup kw kwIndex).isSome ∨ protoKeys.contains kw = false) →
      (∀ p ∈ m, P p.1) →
      ∃ scores, accumulateScoresE kwIndex kws m = Except.ok scores
        ∧ ∀ p ∈ scores, P p.1 := by
  intro kws
  induction kws with
  | nil => intro m _ hm; exact ⟨m, rfl, hm⟩
  | cons kw rest ih =>
    intro m hsafe hm
    rw [accumulateScoresE]
    cases hl : alookup kw kwIndex with
    | some ids =>
      have hids : ∀ id ∈ ids, P id :=
        fun id hid => hkw (kw, ids) (alookup_mem kw ids kwIndex hl) id hid
      obtain ⟨scores, hs, hps⟩ := ih (ids.foldl (fun mm id => bumpScore id mm) m)
        (fun w hw => hsafe w (List.mem_cons_of_mem _ hw))
        (bumpFold_keys P ids m hm hids)
      refine ⟨scores, ?_, hps⟩
      rw [matchingIdsOf, hl]
      exact hs
    | none =>
      have hpk : protoKeys.contains kw = false := by
        rcases hsafe kw (List.mem_cons_self _ _) with h | h
        · rw [hl] at h; simp at h
        · exact h
      obtain ⟨scores, hs, hps⟩ := ih m
        (fun w hw => hsafe w (List.mem_cons_of_mem _ hw)) hm
      refine ⟨scores, ?_, hps⟩
      rw [matchingIdsOf, hl, if_neg (by simpa using hpk)]
      simpa using hs

/-- The fallback assembly succeeds whenever every ranked id exists in the
chunk map. -/
theorem fallbackAssemble_ok (idx : IndexData) (rf : ReadOracle)
    (scores : List (String × Nat)) :
    ∀ ids : List String, (∀ id ∈ ids, (alookup id idx.chunks).isSome) →
      ∃ l, fallbackAssemble idx rf scores ids = Except.ok l := by
  intro ids
  induction ids with
  | nil => exact fun _ => ⟨[], rfl⟩
  | cons id rest ih =>
    intro h
    obtain ⟨c, hc⟩ := Option.isSome_iff_exists.mp (h id (List.mem_cons_self _ _))
    obtain ⟨tl, htl⟩ := ih (fun x hx => h x (List.mem_cons_of_mem _ hx))
    cases hres : fallbackAssemble idx rf scores (id :: rest) with
    | ok l => exact ⟨l, rfl⟩
    | error e =>
      rw [fallbackAssemble, hc, htl] at hres
      simp at hres

/-- C7 counterexample: against a well-formed createIndex-built index whose
keyword map lacks the key, the question "constructor" makes the posting-list
read return the inherited Object.prototype.constructor (truthy and not
iterable), the for..of throws, the catch of the fallback rethrows, and the
retrieval call propagates the error instead of returning a list. -/
theorem retrieval_fallback_raises_cex :
    WellFormedIndex (createIndex true ("idx") 2000 [sampleEnriched])
    ∧ findRelevantChunks [] 5 (fun _ _ _ => "")
        (createIndex true ("idx") 2000 [sampleEnriched]) ("constructor")
        (Except.error ("primary failed"))
      = Except.error ("TypeError: matchingChunkIds is not iterable") := by
  constructor
  · decide
  · show keywordFallback [] 5 (fun _ _ _ => "")
        (createIndex true ("idx") 2000 [sampleEnriched]) ("constructor")
      = Except.error ("TypeError: matchingChunkIds is not iterable")
    unfold keywordFallback
    simp only
    have hkw : extractKeywordsFromQuestion [] ("constructor") = ["constructor"] := by
      unfold extractKeywordsFromQuestion
      simp only
      have hw : (((((lowerStr ("constructor")).data.filter
            (fun c => !punctChars.contains c)).splitOnP (fun c => c.isWhitespace)).map
            (fun w => String.mk w)).filter
            (fun w => decide (2 < w.length) && !([] : List String).contains (lowerStr w)))
          = [("constructor" : String)] := by decide
      rw [hw]
      rw [dedupFirst]
      simp [dedupFirst]
    rw [hkw]
    have halook : alookup ("constructor")
        (createIndex true ("idx") 2000 [sampleEnriched]).keywordsIndex = none := by decide
    rw [show accumulateScores (createIndex true ("idx") 2000 [sampleEnriched]).keywordsIndex
          ["constructor"]
        = Except.error ("TypeError: matchingChunkIds is not iterable") by
      rw [accumulateScores, accumulateScoresE, matchingIdsOf, halook, if_pos (by decide)]]

/-- C7 (amended): when the primary strategy has failed, findRelevantChunks
delegates to the keyword fallback; on an index satisfying the data-model
invariant the fallback returns a (possibly empty) result list provided no
extracted question keyword names an inherited Object.prototype property
while being absent from the keyword map — for such a keyword the fallback
itself throws and the error propagates. -/
theorem retrieval_fallback_total (sw : List String) (mc : Nat) (rf : ReadOracle)
    (idx : IndexData) (q e : String) (hwf : WellFormedIndex idx)
    (hproto : ∀ kw ∈ extractKeywordsFromQuestion sw q,
      (alookup kw idx.keywordsIndex).isSome ∨ protoKeys.contains kw = false) :
    findRelevantChunks sw mc rf idx q (Except.error e)
      = keywordFallback sw mc rf idx q
    ∧ ∃ l, keywordFallback sw mc rf idx q = Except.ok l := by
  refine ⟨rfl, ?_⟩
  unfold keywordFallback
  simp only
  obtain ⟨scores, hs, hkeys⟩ := accumulateScoresE_ok idx.keywordsIndex
    (fun x => (alookup x idx.chunks).isSome)
    (fun qq hqq id' hid' => hwf qq hqq id' hid')
    (extractKeywordsFromQuestion sw q) [] hproto (by simp)
  have hs2 : accumulateScores idx.keywordsIndex (extractKeywordsFromQuestion sw q)
      = Except.ok scores := hs
  rw [hs2]
  apply fallbackAssemble_ok
  intro id hid
  have hmem : id ∈ (scores.insertionSort countGE).map Prod.fst :=
    List.mem_of_mem_take hid
  obtain ⟨p, hp, hfst⟩ := List.mem_map.mp hmem
  have hp' : p ∈ scores := (List.mem_insertionSort countGE).mp hp
  rw [← hfst]
  exact hkeys p hp'

/-- Empty question: no keywords survive extraction. -/
theorem emptyQuestionKeywords : extractKeywordsFromQuestion [] ("") = [] := by
  unfold extractKeywordsFromQuestion
  simp only
  rw [show (((((lowerStr ("")).data.filter
        (fun c => !punctChars.contains c)).splitOnP (fun c => c.isWhitespace)).map
        (fun w => String.mk w)).filter
        (fun w => decide (2 < w.length) && !([] : List String).contains (lowerStr w)))
      = ([] : List String) by decide]
  rw [dedupFirst]

/-- C7 witness: the amended statement at a concrete well-formed one-chunk
index and a question with no extractable keywords. -/
theorem retrieval_fallback_total_witness :
    WellFormedIndex (createIndex true ("idx") 2000 [sampleEnriched])
    ∧ (∀ kw ∈ extractKeywordsFromQuestion [] (""),
        (alookup kw (createIndex true ("idx") 2000 [sampleEnriched]).keywordsIndex).isSome
          ∨ protoKeys.contains kw = false)
    ∧ (findRelevantChunks [] 5 (fun _ _ _ => "") (createIndex true ("idx") 2000 [sampleEnriched])
          ("") (Except.error ("boom"))
        = keywordFallback [] 5 (fun _ _ _ => "") (createIndex true ("idx") 2000 [sampleEnriched])
            ("")
      ∧ ∃ l, keywordFallback [] 5 (fun _ _ _ => "")
            (createIndex true ("idx") 2000 [sampleEnriched]) ("") = Except.ok l) :=
  ⟨by decide,
   by rw [emptyQuestionKeywords]; intro kw hkw; exact absurd hkw (List.not_mem_nil kw),
   retrieval_fallback_total [] 5 (fun _ _ _ => "")
     (createIndex true ("idx") 2000 [sampleEnriched]) ("") ("boom") (by decide)
     (by rw [emptyQuestionKeywords]; intro kw hkw; exact absurd hkw (List.not_mem_nil kw))⟩

/-! Conversation store: embedding of ConversationManager.addExchange and the
exchange compaction.  Persistence is elided (read-modify-write of one value);
the summary collaborator round trip is an oracle returning the trimmed
summary on success or a failure marker. -/

structure Exchange where
  timestamp : String
  question : String
  answer : String
deriving Repr, DecidableEq

structure Conversation where
  id : String
  indexId : String
  createdAt : String
  updatedAt : String
  recentExchanges : List Exchange
  historySummary : String
  exchangeCount : Nat
  lastMergeCount : Nat
deriving Repr, DecidableEq

/-- ConversationManager.createConversation. -/
def createConversation (id indexId ts : String) : Conversation :=
  { id := id
    indexId := indexId
    createdAt := ts
    updatedAt := ts
    recentExchanges := []
    historySummary := ""
    exchangeCount := 0
    lastMergeCount := 0 }

/-- Oracle for createConversationSummary: some trimmed summary, or a failure
that the caller logs and swallows. -/
abbrev MergeOracle := String → Option String

/-- Text block of the exchanges to merge, as assembled for the prompt. -/
def exchangesText (l : List Exchange) : String :=
  l.foldl
    (fun acc ex => acc ++ "User: " ++ ex.question ++ "\n\nAssistant: " ++ ex.answer ++ "\n\n")
    ""

/-- Compaction prompt of mergeExchangesToSummary. -/
def mergePrompt (historySummary : String) (toMerge : List Exchange)
    (maxSummaryTokens : Nat) : String :=
  "\n      Here is the existing conversation summary:\n      \""
    ++ historySummary
    ++ "\"\n      \n      Here are the new conversation exchanges to merge:\n      "
    ++ exchangesText toMerge
    ++ "\n      \n      Please merge these new exchanges into the existing summary to create an updated summary.\n      Focus on the most important and relevant information.\n      Keep the summary concise, within approximately "
    ++ toString maxSummaryTokens
    ++ " tokens (roughly "
    ++ toString (maxSummaryTokens * 4)
    ++ " characters).\n      "

/-- ConversationManager mergeExchangesToSummary: the trim of recentExchanges
happens before the collaborator call, so it survives a failed call; the
summary and lastMergeCount are updated only on success. -/
def mergeExchangesToSummary (maxRecent maxSummaryTokens : Nat) (llm : MergeOracle)
    (conv : Conversation) : Conversation :=
  let n := conv.recentExchanges.length
  let toMerge := conv.recentExchanges.take (n - maxRecent)
  let trimmed := { conv with recentExchanges := conv.recentExchanges.drop (n - maxRecent) }
  if toMerge.length = 0 then trimmed
  else
    match llm (mergePrompt conv.historySummary toMerge maxSummaryTokens) with
    | some newSummary =>
      { trimmed with historySummary := newSummary, lastMergeCount := trimmed.exchangeCount }
    | none => trimmed

/-- ConversationManager.addExchange: append the exchange, bump the counter,
then compact when the trimmed list is over maxRecentExchanges AND at least
mergeFrequency exchanges happened since the last merge. -/
def addExchange (maxRecent mergeFreq maxSummaryTokens : Nat) (llm : MergeOracle)
    (ts q a : String) (conv : Conversation) : Conversation :=
  let conv1 : Conversation :=
    { conv with
      recentExchanges := conv.recentExchanges ++ [{ timestamp := ts, question := q, answer := a }]
      exchangeCount := conv.exchangeCount + 1
      updatedAt := ts }
  if maxRecent < conv1.recentExchanges.length
      ∧ mergeFreq ≤ conv1.exchangeCount - conv1.lastMergeCount then
    mergeExchangesToSummary maxRecent maxSummaryTokens llm conv1
  else conv1

/-- Conversation states reachable from createConversation through any
sequence of addExchange calls, under any collaborator behaviour. -/
inductive ReachableConv (maxRecent mergeFreq maxSummaryTokens : Nat) : Conversation → Prop
  | created (id indexId ts : String) :
      ReachableConv maxRecent mergeFreq maxSummaryTokens (createConversation id indexId ts)
  | exchanged (llm : MergeOracle) (ts q a : String) (conv : Conversation) :
      ReachableConv maxRecent mergeFreq maxSummaryTokens conv →
      ReachableConv maxRecent mergeFreq maxSummaryTokens
        (addExchange maxRecent mergeFreq maxSummaryTokens llm ts q a conv)

/-- Inductive invariant of the conversation state machine. -/
def ConvInv (maxRecent mergeFreq : Nat) (c : Conversation) : Prop :=
  c.lastMergeCount ≤ c.exchangeCount
  ∧ c.recentExchanges.length ≤ maxRecent + (c.exchangeCount - c.lastMergeCount)
  ∧ (maxRecent < c.recentExchanges.length →
      c.exchangeCount - c.lastMergeCount < mergeFreq)

/-- Effect of a compaction on the tracked quantities, for any conversation
whose trimmed list is over the cap: the list is cut to exactly maxRecent,
the exchange counter is untouched, and lastMergeCount either jumps to the
counter (successful summary) or stays (failed summary). -/
theorem merge_inv (mr mst : Nat) (llm : MergeOracle) (c : Conversation)
    (hc : mr < c.recentExchanges.length) :
    (mergeExchangesToSummary mr mst llm c).recentExchanges.length = mr
    ∧ (mergeExchangesToSummary mr mst llm c).exchangeCount = c.exchangeCount
    ∧ ((mergeExchangesToSummary mr mst llm c).lastMergeCount = c.exchangeCount
       ∨ (mergeExchangesToSummary mr mst llm c).lastMergeCount = c.lastMergeCount) := by
  unfold mergeExchangesToSummary
  simp only
  rw [if_neg (by simp only [List.length_take]; omega)]
  split
  · refine ⟨?_, rfl, Or.inl rfl⟩
    simp only [List.length_drop]
    omega
  · refine ⟨?_, rfl, Or.inr rfl⟩
    simp only [List.length_drop]
    omega

theorem addExchange_inv (mr mf mst : Nat) (llm : MergeOracle) (ts q a : String)
    (conv : Conversation) (hinv : ConvInv mr mf conv) :
    ConvInv mr mf (addExchange mr mf mst llm ts q a conv) := by
  obtain ⟨h1, h2, h3⟩ := hinv
  unfold addExchange
  simp only
  split_ifs with hcond
  · obtain ⟨hm1, hm2, hm3⟩ := merge_inv mr mst llm
      { conv with
        recentExchanges :=
          conv.recentExchanges ++ [{ timestamp := ts, question := q, answer := a }]
        exchangeCount := conv.exchangeCount + 1
        updatedAt := ts } hcond.1
    unfold ConvInv
    simp only at hm1 hm2 hm3
    rcases hm3 with hm3 | hm3 <;>
      exact ⟨by omega, by omega, fun hlen => by omega⟩
  · unfold ConvInv
    simp only [List.length_append, List.length_cons, List.length_nil]
    rw [not_and_or] at hcond
    simp only [List.length_append, List.length_cons, List.length_nil, not_lt, not_le] at hcond
    rcases hcond with hcond | hcond <;>
      exact ⟨by omega, by omega, fun hlen => by omega⟩

/-- Summary collaborator that always succeeds with a fixed summary. -/
def cexLLM : MergeOracle := fun _ => some ("s")

/-- Conversation reached after three exchanges with maxRecentExchanges 1 and
mergeFrequency 2: the second call compacts, the third cannot (only one
exchange since the last merge), leaving two recent exchanges. -/
def convCex : Conversation :=
  addExchange 1 2 500 cexLLM ("t3") ("q") ("a")
    (addExchange 1 2 500 cexLLM ("t2") ("q") ("a")
      (addExchange 1 2 500 cexLLM ("t1") ("q") ("a")
        (createConversation ("c") ("i") ("t0"))))

theorem convCex_reachable : ReachableConv 1 2 500 convCex := by
  unfold convCex
  exact ReachableConv.exchanged cexLLM ("t3") ("q") ("a") _
    (ReachableConv.exchanged cexLLM ("t2") ("q") ("a") _
      (ReachableConv.exchanged cexLLM ("t1") ("q") ("a") _
        (ReachableConv.created ("c") ("i") ("t0"))))

/-- C1 counterexample: a reachable conversation state right after a completed
addExchange call whose recentExchanges length exceeds maxRecentExchanges,
because the mergeFrequency guard blocks the compaction. -/
theorem conversation_bound_cex :
    ReachableConv 1 2 500 convCex
    ∧ convCex.recentExchanges.length = 2
    ∧ ¬ (convCex.recentExchanges.length ≤ 1) :=
  ⟨convCex_reachable, by decide, by decide⟩

/-- C1 (amended): after any completed addExchange call, and in fact in every
reachable conversation state, the recentExchanges length is at most
maxRecentExchanges + mergeFrequency - 1; the cap maxRecentExchanges itself
is restored exactly by each compaction. -/
theorem conversation_bound_amended (mr mf mst : Nat) (hmf : 1 ≤ mf)
    (c : Conversation) (hreach : ReachableConv mr mf mst c) :
    c.recentExchanges.length ≤ mr + mf - 1 := by
  have hinv : ConvInv mr mf c := by
    induction hreach with
    | created id ix ts =>
      refine ⟨by simp [createConversation], ?_, ?_⟩
      · simp [createConversation]
      · simp [createConversation]
    | exchanged llm ts q a conv hr ih =>
      exact addExchange_inv mr mf mst llm ts q a conv ih
  obtain ⟨h1, h2, h3⟩ := hinv
  by_cases hlen : mr < c.recentExchanges.length
  · have := h3 hlen
    omega
  · omega

/-- C1 witness: the amended bound evaluated at the counterexample state. -/
theorem conversation_bound_amended_witness :
    (1 : Nat) ≤ 2
    ∧ ReachableConv 1 2 500 convCex
    ∧ convCex.recentExchanges.length ≤ 1 + 2 - 1 :=
  ⟨by decide, convCex_reachable,
   conversation_bound_amended 1 2 500 (by decide) convCex convCex_reachable⟩

/-! Iterative synthesizer: embedding of IterativeAnswerer.  The collaborator
is a total prompt-to-text oracle; the per-call failure mode (fatal
SynthesisError) is outside the claims settled here. -/

/-- Oracle for ClaudeClient.sendPrompt as used by the answerer. -/
abbrev RespondOracle := String → String

/-- IterativeAnswerer calculateWaitTime: estimated tokens are length / 4,
converted to milliseconds against the tokens-per-minute budget, ceiled, with
a 500ms floor. -/
def calculateWaitTime (tokenRate : Nat) (len : Nat) : Nat :=
  max 500 (Int.toNat ⌈(len : ℚ) / 4 / (tokenRate : ℚ) * 60 * 1000⌉)

/-- The stable ascending sort on relevanceScore applied to the chunks before
folding (every retriever result carries a relevance score, so the
undefined-score branch of the comparator never fires). -/
def sortChunksByRelevance (chunks : List ScoredChunk) : List ScoredChunk :=
  chunks.insertionSort relevanceLE

/-- IterativeAnswerer buildChunkPrompt. -/
def buildChunkPrompt (question : String) (chunk : ScoredChunk)
    (currentAnswer conversationHistory : String) (chunkIndex total : Nat) : String :=
  (if conversationHistory.trim ≠ "" then
      "Previous conversation:\n" ++ conversationHistory ++ "\n\n" else "")
  ++ "USER QUESTION: " ++ question ++ "\n\n"
  ++ "Below is " ++ (if chunkIndex = 0 then "the first" else "another")
  ++ " section of information (" ++ toString (chunkIndex + 1) ++ "/" ++ toString total
  ++ "):\n\n"
  ++ "SECTION CONTENT:\n" ++ chunk.content ++ "\n\n"
  ++ (if chunkIndex = 0 then
        "Based on this section, start formulating an answer to the user\x27s question. If this section doesn\x27t contain relevant information, simply state what information you would need to answer the question."
      else
        "Here is the current answer based on previous sections:\n\n" ++ currentAnswer
        ++ "\n\n"
        ++ "Please improve, correct, or expand this answer by incorporating any relevant information from the new section. If this section doesn\x27t add any relevant information, you can return the current answer unchanged or make minor improvements for clarity.")
  ++ "\n\nRemember to base your answer strictly on the provided information. If the information needed to answer the question is not available, say so clearly."

/-- IterativeAnswerer generateFinalSummary prompt. -/
def finalSummaryPrompt (question compiledAnswer : String) : String :=
  "\n    USER QUESTION: " ++ question
  ++ "\n\n    Below is a compiled answer based on processing multiple sections of information:\n    \n    "
  ++ compiledAnswer
  ++ "\n    \n    Please review this answer and create a final, refined version that:\n    1. Ensures it directly answers the original question\n    2. Eliminates any redundancy or repetition\n    3. Presents information in a clear, logical flow\n    4. Maintains accuracy while improving readability\n    5. Is concise but comprehensive\n    \n    Your final, refined answer:\n    "

/-- The per-chunk fold of generateAnswer: sleep the pacing interval, send the
prompt, replace the running answer with the response verbatim.  Returns the
final running answer, the slept intervals in order, and the call count. -/
def answerLoop (tokenRate : Nat) (respond : RespondOracle) (question history : String)
    (total : Nat) : Nat → String → List ScoredChunk → String × List Nat × Nat
  | _, cur, [] => (cur, [], 0)
  | i, cur, c :: rest =>
    let w := calculateWaitTime tokenRate c.content.length
    let resp := respond (buildChunkPrompt question c cur history i total)
    let r := answerLoop tokenRate respond question history total (i + 1) resp rest
    (r.1, w :: r.2.1, r.2.2 + 1)

/-- Observable outcome of one generateAnswer run: the final answer, the
pacing intervals slept before each per-chunk call, the collaborator call
count, and whether the final polish call happened (with its interval). -/
structure GenResult where
  answer : String
  waits : List Nat
  calls : Nat
  polished : Bool
  polishWait : Option Nat
deriving Repr, DecidableEq

/-- IterativeAnswerer.generateAnswer: sort by relevance, fold the chunks one
collaborator call at a time, then polish once when more than one chunk was
processed. -/
def generateAnswer (tokenRate : Nat) (respond : RespondOracle) (question : String)
    (relevantChunks : List ScoredChunk) (conversationHistory : String) : GenResult :=
  let sorted := sortChunksByRelevance relevantChunks
  let r := answerLoop tokenRate respond question conversationHistory sorted.length 0 "" sorted
  if 1 < sorted.length then
    { answer := respond (finalSummaryPrompt question r.1)
      waits := r.2.1
      calls := r.2.2 + 1
      polished := true
      polishWait := some (calculateWaitTime tokenRate r.1.length) }
  else
    { answer := r.1
      waits := r.2.1
      calls := r.2.2
      polished := false
      polishWait := none }

/-- Ceiling of a natural division expressed with natural operations. -/
theorem ceil_natCast_div (a b : Nat) (hb : 0 < b) :
    ⌈(a : ℚ) / (b : ℚ)⌉ = ((a + b - 1) / b : Nat) := by
  have hb' : (0 : ℚ) < (b : ℚ) := by exact_mod_cast hb
  have hq := Nat.div_add_mod (a + b - 1) b
  have hr : (a + b - 1) % b < b := Nat.mod_lt _ hb
  have hq' : (b : ℚ) * (((a + b - 1) / b : Nat) : ℚ) + (((a + b - 1) % b : Nat) : ℚ)
      = (a : ℚ) + (b : ℚ) - 1 := by
    have hcast := congrArg (fun x : Nat => (x : ℚ)) hq
    push_cast [Nat.cast_sub (show 1 ≤ a + b by omega)] at hcast
    linarith [hcast]
  have hr' : (((a + b - 1) % b : Nat) : ℚ) + 1 ≤ (b : ℚ) := by exact_mod_cast hr
  have hr0 : (0 : ℚ) ≤ (((a + b - 1) % b : Nat) : ℚ) := by positivity
  have h1 : (((a + b - 1) / b : Nat) : ℚ) - 1 < (a : ℚ) / (b : ℚ) := by
    rw [lt_div_iff₀ hb']
    nlinarith [hq', hr0]
  have h2 : (a : ℚ) / (b : ℚ) ≤ (((a + b - 1) / b : Nat) : ℚ) := by
    rw [div_le_iff₀ hb']
    nlinarith [hq', hr']
  rw [Int.ceil_eq_iff]
  constructor
  · simpa using h1
  · simpa using h2

/-- The pacing formula in closed natural form. -/
theorem calculateWaitTime_eq (tokenRate len : Nat) (hR : 0 < tokenRate) :
    calculateWaitTime tokenRate len
      = max 500 ((15000 * len + tokenRate - 1) / tokenRate) := by
  unfold calculateWaitTime
  have hR' : (tokenRate : ℚ) ≠ 0 := by
    exact_mod_cast Nat.pos_iff_ne_zero.mp hR
  have harg : (len : ℚ) / 4 / (tokenRate : ℚ) * 60 * 1000
      = ((15000 * len : Nat) : ℚ) / (tokenRate : ℚ) := by
    push_cast
    field_simp
    ring
  rw [harg, ceil_natCast_div (15000 * len) tokenRate hR]
  omega

theorem answerLoop_waits (tokenRate : Nat) (respond : RespondOracle)
    (question history : String) (total : Nat) :
    ∀ (l : List ScoredChunk) (i : Nat) (cur : String),
      (answerLoop tokenRate respond question history total i cur l).2.1
        = l.map (fun c => calculateWaitTime tokenRate c.content.length) := by
  intro l
  induction l with
  | nil => intro i cur; rfl
  | cons c rest ih => intro i cur; simp [answerLoop, ih]

/-- C9: the pacing interval slept before each per-chunk collaborator call is
calculateWaitTime of that chunk, which for a positive budget equals
max(500, ceil((L/4)/rate * 60 * 1000)) milliseconds, i.e.
max 500 ((15000 L + rate - 1) / rate) over the naturals. -/
theorem pacing_interval (tokenRate L : Nat) (hR : 0 < tokenRate)
    (respond : RespondOracle) (q hist : String) (chunks : List ScoredChunk) :
    calculateWaitTime tokenRate L = max 500 ((15000 * L + tokenRate - 1) / tokenRate)
    ∧ (generateAnswer tokenRate respond q chunks hist).waits
      = (sortChunksByRelevance chunks).map
          (fun c => calculateWaitTime tokenRate c.content.length) := by
  refine ⟨calculateWaitTime_eq tokenRate L hR, ?_⟩
  unfold generateAnswer
  simp only
  split_ifs with h
  · simp [answerLoop_waits]
  · simp [answerLoop_waits]

/-- C9 witness: the pacing statement at the default 50000 tokens-per-minute
budget and an eight-character content. -/
theorem pacing_interval_witness :
    (0 : Nat) < 50000
    ∧ (calculateWaitTime 50000 8 = max 500 ((15000 * 8 + 50000 - 1) / 50000)
       ∧ (generateAnswer 50000 (fun _ => "ok") ("q") [] ("")).waits
          = (sortChunksByRelevance []).map
              (fun c => calculateWaitTime 50000 c.content.length)) :=
  ⟨by decide, pacing_interval 50000 8 (by decide) (fun _ => "ok") ("q") ("") []⟩

/-- C10: generateAnswer on an empty segment list returns the empty string
with no collaborator calls, no pacing sleeps and no polish; and in general
the polish call happens exactly when more than one segment was processed. -/
theorem empty_segment_generation (tokenRate : Nat) (respond : RespondOracle)
    (q hist : String) :
    generateAnswer tokenRate respond q [] hist
      = { answer := "", waits := [], calls := 0, polished := false, polishWait := none }
    ∧ ∀ chunks : List ScoredChunk,
        (generateAnswer tokenRate respond q chunks hist).polished
          = decide (1 < chunks.length) := by
  constructor
  · rfl
  · intro chunks
    have hlen : (sortChunksByRelevance chunks).length = chunks.length :=
      List.length_insertionSort relevanceLE chunks
    unfold generateAnswer
    simp only
    split_ifs with h
    · rw [hlen] at h
      simp [h]
    · rw [hlen] at h
      simp [h]
